import Mathlib

/-!
Verification development for the ResearchLoop repository.

The repository contains several superseded drafts of the same components.
The embedding below follows the most evolved draft, which is the only one
implementing every feature the design describes: the `ExecutionService`
with an execution lock, fatal-error recovery and an initialization promise
(src/App.tsx, final section), and the bounded verification loop with
iteration ceiling 8 (src/App.tsx, `handleFileUpload` of the second section).

Strings are modelled as `List Char`.  The guest (Python) programs run by the
sandbox are modelled by a small statement language `GStmt` that can print,
bind global names, and raise exceptions (conditionally on bound names, so
that guest behaviour genuinely depends on the global scope it runs in).
The captured stdout/stderr buffer is the '\n'-joined list of batched lines,
exactly as the host accumulates it (`logs += s + "\n"`).
-/

namespace ResearchLoop

abbrev Str := List Char

/-- Model of JavaScript `s.startsWith(pat)` at a given position: the first
argument is the pattern, the second the string. -/
def beginsWith : Str → Str → Bool
  | [], _ => true
  | _ :: _, [] => false
  | p :: ps, c :: cs => p == c && beginsWith ps cs

/-- Model of JavaScript `s.includes(pat)`: the pattern occurs somewhere in
the string. -/
def containsSub (pat : Str) : Str → Bool
  | [] => beginsWith pat []
  | c :: cs => beginsWith pat (c :: cs) || containsSub pat cs

/-- One left-to-right scan implementing the JavaScript global replace
`s.replace(new RegExp(tag + ".*\n?", "g"), "")` for a nonempty tag that
contains no newline: when the tag matches at the current position the match
(running to the end of the line, consuming the optional newline) is dropped
and scanning resumes after it; otherwise the character is kept.  The
`skipping` flag records that we are inside a dropped match. -/
def stripScan (tag : Str) : Bool → Str → Str
  | _, [] => []
  | true, c :: cs =>
      if c = '\n' then stripScan tag false cs else stripScan tag true cs
  | false, c :: cs =>
      if beginsWith tag (c :: cs) then
        (if c = '\n' then stripScan tag false cs else stripScan tag true cs)
      else c :: stripScan tag false cs

def stripTagAll (tag s : Str) : Str := stripScan tag false s

def isWS (c : Char) : Bool := c == ' ' || c == '\n' || c == '\t' || c == '\r'

def trimLeft : Str → Str
  | [] => []
  | c :: cs => if isWS c then trimLeft cs else c :: cs

/-- Model of JavaScript `s.trim()` (whitespace restricted to the characters
the captured buffers can actually contain). -/
def trimChars (s : Str) : Str := ((trimLeft ((trimLeft s).reverse)).reverse)

def noNL (l : Str) : Bool := l.all (fun c => !(c == '\n'))

/-- The host log buffer: every batched stdout/stderr chunk is appended with
a trailing newline (`logs += s + "\n"`). -/
def joinLines : List Str → Str
  | [] => []
  | l :: ls => l ++ '\n' :: joinLines ls

example : containsSub ("bc".data) ("abcd".data) = true := by decide
example : containsSub ("bd".data) ("abcd".data) = false := by decide
example : stripTagAll ("TAG:".data) ("xx\nTAG: hello\nyy\n".data) = ("xx\nyy\n".data) := by decide
example : trimChars ("  ab c \n".data) = ("ab c".data) := by decide

/-! ## Guest programs

The candidate code and test code handed to the sandbox are Python sources.
For the embedding they are modelled as lists of statements that can print a
line, bind a global name, raise, or raise conditionally on a name being
bound (so that guest behaviour can observe the global scope it runs in). -/

inductive GStmt
  | gprint (s : String)
  | gassign (x : String)
  | graise (msg : String)
  | graiseIfDef (x : String) (msg : String)
deriving DecidableEq

/-- Bind a global name (Python rebinding keeps a single entry per name). -/
def bindName (env : List String) (x : String) : List String :=
  if x ∈ env then env else env ++ [x]

structure GuestOut where
  lines : List Str
  exc : Option String
  env : List String
deriving DecidableEq

/-- Run a guest program in a global scope: statements execute in order until
the first uncaught exception; printed lines and the final scope are
collected. -/
def runGuest : List GStmt → List String → GuestOut
  | [], env => ⟨[], none, env⟩
  | stmt :: rest, env =>
    match stmt with
    | .gprint s =>
        let o := runGuest rest env
        ⟨s.data :: o.lines, o.exc, o.env⟩
    | .gassign x => runGuest rest (bindName env x)
    | .graise m => ⟨[], some m, env⟩
    | .graiseIfDef x m =>
        if x ∈ env then ⟨[], some m, env⟩ else runGuest rest env

/-! ## The driver script (`run_research_loop`)

Embedding of the Python driver the service wraps around the candidate and
test sources (src/App.tsx, final section, `fullCode`): the candidate runs in
a guarded block; on an exception the implementation-error stage line and the
traceback are printed and the function returns early with `(False, [])`, so
the tests never run.  Otherwise the tests run in a second guarded block.
Finally the module-level code prints the inspector snapshot line and the
final status line. -/

def stageTag : Str := "RL_STAGELOG: ".data
def inspTag : Str := "RL_INSPECTOR_SNAPSHOT:".data
def finalTag : Str := "RL_FINAL_STATUS: ".data
def stageInitLine : Str := "RL_STAGELOG: INITIALIZING_CORE".data
def implErrorLine : Str := "RL_STAGELOG: IMPLEMENTATION_ERROR".data
def startTestsLine : Str := "RL_STAGELOG: STARTING_TESTS".data
def verifiedLine : Str := "RL_STAGELOG: CORE_LOGIC_VERIFIED".data
def testCrashLine : Str := "RL_STAGELOG: TEST_CRASH".data
def verifFailedLine : Str := "RL_STAGELOG: VERIFICATION_FAILED".data
def finalSuccessLine : Str := "RL_FINAL_STATUS: SUCCESS".data
def finalFailureLine : Str := "RL_FINAL_STATUS: FAILURE".data

/-- Text printed by `traceback.format_exc()` for an exception with the given
message (the frame details are elided; only the line structure and the
guest-controlled message matter for the claims). -/
def tracebackOf (m : String) : Str :=
  "Traceback (most recent call last): ".data ++ m.data

/-- Names the driver's inspector skips (its local bookkeeping names). -/
def pyBuiltins : List String :=
  ["sys", "io", "np", "json", "traceback", "inspect", "frame"]

/-- The inspector scan over the function's local scope: keep names that do
not start with an underscore and are not bookkeeping names. -/
def inspectorVars (env : List String) : List String :=
  env.filter (fun x => !(x.data.head? == some '_') && !(pyBuiltins.contains x))

/-- Serialization of the inspector snapshot appended after the snapshot tag
(the JSON type/value previews are elided; no claim depends on them, only on
which names appear on the tagged line). -/
def serializeVars : List String → Str
  | [] => []
  | [x] => x.data
  | x :: xs => x.data ++ ',' :: serializeVars xs

structure DriverOut where
  lines : List Str
  res : Bool
  vars : List String
deriving DecidableEq

/-- The driver run: printed lines (in order), the Python-level verdict
`_res` returned by `run_research_loop`, and the inspector variable list. -/
def runResearchLoop (code tests : List GStmt) : DriverOut :=
  let implOut := runGuest code []
  match implOut.exc with
  | some m =>
      { lines := stageInitLine :: implOut.lines ++
          [implErrorLine, tracebackOf m,
           inspTag ++ serializeVars [], finalFailureLine],
        res := false, vars := [] }
  | none =>
      let testOut := runGuest tests implOut.env
      let vars := inspectorVars testOut.env
      match testOut.exc with
      | none =>
          { lines := stageInitLine :: implOut.lines ++ [startTestsLine] ++
              testOut.lines ++
              [verifiedLine, inspTag ++ serializeVars vars, finalSuccessLine],
            res := true, vars := vars }
      | some m =>
          { lines := stageInitLine :: implOut.lines ++ [startTestsLine] ++
              testOut.lines ++
              [testCrashLine, tracebackOf m, verifFailedLine,
               inspTag ++ serializeVars vars, finalFailureLine],
            res := false, vars := vars }

/-- The captured stdout/stderr buffer of a completed run. -/
def captureBuffer (code tests : List GStmt) : Str :=
  joinLines (runResearchLoop code tests).lines

/-- The log sanitization performed before returning a result: the three
global regex replaces (inspector snapshot first, then stage lines, then
final status lines) followed by `trim()`. -/
def cleanBuffer (b : Str) : Str :=
  trimChars (stripTagAll finalTag (stripTagAll stageTag (stripTagAll inspTag b)))

structure ExecutionResult where
  passed : Bool
  logs : Str
  vars : Option (List String)
deriving DecidableEq

/-- The result built in the happy path of `runPython` (the inner `try`
block): the verdict is `logs.includes("RL_FINAL_STATUS: SUCCESS")`, the
variables come from the inspector snapshot line, and the returned logs are
the sanitized buffer. -/
def completedResult (code tests : List GStmt) : ExecutionResult :=
  let buf := captureBuffer code tests
  { passed := containsSub finalSuccessLine buf,
    logs := cleanBuffer buf,
    vars := some (runResearchLoop code tests).vars }

/-! ## The execution service state machine

`SvcState` models the service's fields: `pyodide` (the runtime handle),
`initPromise` (the cached initialization future, identified by a number),
and the `isExecuting` lock.  `bootCount` counts bootstraps ever started
(fresh future identifiers), `execCount` counts invocations of
`runPythonAsync`; both are ghost counters making "no second bootstrap" and
"no second execution" stateable. -/

structure SvcState where
  pyodide : Option Unit
  initPromise : Option Nat
  isExecuting : Bool
  bootCount : Nat
  execCount : Nat
deriving DecidableEq

inductive InitAction
  | alreadyReady
  | awaitExisting (fid : Nat)
  | started (fid : Nat)
deriving DecidableEq

namespace ExecutionService

/-- Embedding of `ExecutionService.init`: return immediately when the
runtime handle exists; share the stored initialization future when one is
outstanding; otherwise start a fresh bootstrap and record its future. -/
def init (st : SvcState) : InitAction × SvcState :=
  if st.pyodide.isSome then (InitAction.alreadyReady, st)
  else
    match st.initPromise with
    | some fid => (InitAction.awaitExisting fid, st)
    | none =>
        (InitAction.started st.bootCount,
         { st with initPromise := some st.bootCount,
                   bootCount := st.bootCount + 1 })

/-- Resolution of the initialization future: on success the handle is set;
on failure the `catch` clears the stored future (and rethrows). -/
def resolveInit (ok : Bool) (st : SvcState) : SvcState :=
  if ok then { st with pyodide := some () } else { st with initPromise := none }

/-- The state after `await this.init()` succeeded inside `runPython`. -/
def initResolved (st : SvcState) : SvcState :=
  resolveInit true (ExecutionService.init st).2

/-- The fatal-fault substrings checked by `handleFatalError`. -/
def fatalSubstrings : List Str :=
  ["table index out of bounds".data, "fatal error".data, "RecursionError".data]

def isFatalMsg (m : String) : Bool :=
  fatalSubstrings.any (fun p => containsSub p m.data)

/-- Embedding of `ExecutionService.handleFatalError`: on a message matching
a fatal-fault substring the runtime handle and the stored initialization
future are discarded. -/
def handleFatalError (m : String) (st : SvcState) : SvcState :=
  if isFatalMsg m then { st with pyodide := none, initPromise := none } else st

/-- Logs of the outer `catch`: `"FATAL_ENGINE_ERROR: " + (err?.message ||
"Internal WASM crash")` (an empty message is falsy in JavaScript). -/
def fatalLogs (m : String) : Str :=
  ("FATAL_ENGINE_ERROR: " ++ (if m = "" then "Internal WASM crash" else m)).data

/-- Environment behaviour of one `runPython` call: the awaited
initialization may reject, the sandboxed run may reject at the host level
with some message, or the driver runs to completion. -/
inductive HostBehavior
  | initFails (msg : String)
  | runThrows (msg : String)
  | completes
deriving DecidableEq

/-- Embedding of `ExecutionService.runPython`.  A call made while the lock
is held throws (`Except.error`) before entering the `try`.  Otherwise the
lock is taken and, depending on the host behaviour: an initialization
failure reaches the outer `catch` (the future was cleared by `init`'s own
`catch`); a host-level run failure passes through `handleFatalError` and
then the outer `catch`; a completed run returns the parsed result.  The
`finally` always releases the lock. -/
def runPython (st : SvcState) (code tests : List GStmt) (host : HostBehavior) :
    Except String ExecutionResult × SvcState :=
  if st.isExecuting then (Except.error ("Execution lock active."), st)
  else
    match host with
    | .initFails m =>
        (Except.ok { passed := false, logs := fatalLogs m, vars := none },
         { st with initPromise := none, isExecuting := false })
    | .runThrows m =>
        let st1 := initResolved st
        let st2 := handleFatalError m { st1 with execCount := st1.execCount + 1 }
        (Except.ok { passed := false, logs := fatalLogs m, vars := none },
         { st2 with isExecuting := false })
    | .completes =>
        let st1 := initResolved st
        (Except.ok (completedResult code tests),
         { st1 with execCount := st1.execCount + 1, isExecuting := false })

end ExecutionService

/-! ## The convergence orchestrator

Embedding of the verification loop of `handleFileUpload` (src/App.tsx,
second section): up to 8 iterations of run → record → (on failure) refine;
at iteration 8 a failure breaks out of the loop and the post-loop code still
transitions to COMPLETED (marking the testing step as errored); an exception
thrown by the execution service is caught and transitions to ERROR.  The
paper-analysis and initial-synthesis stages are modelled by the provided
initial `ImplResult`; the synthesis collaborator's repair call is the
`refine` oracle; the Pro-tier enrichment phases do not affect the final
state or the history and are elided. -/

inductive AppState
  | IDLE | UPLOADING | ANALYZING | IMPLEMENTING | TESTING | DEBUGGING
  | VISUALIZING | VOCALIZING | COMPLETED | ERROR
deriving DecidableEq

/-- One history entry (`history.push({...})`). -/
structure CodeVersion where
  iteration : Nat
  code : List GStmt
  explanation : String
  error : Option Str
  stabilityScore : Nat
deriving DecidableEq

/-- The synthesis collaborator's product: candidate code, tests, and an
explanation. -/
structure ImplResult where
  code : List GStmt
  tests : List GStmt
  explanation : String

structure OrchOutcome where
  history : List CodeVersion
  finalState : AppState
  passed : Bool
  svc : SvcState

/-- The record pushed onto `history` each iteration
(`history.push({iteration, code, explanation, error, stabilityScore})`). -/
def cycleEntry (iter : Nat) (cur : ImplResult) (r : ExecutionResult) : CodeVersion :=
  { iteration := iter, code := cur.code, explanation := cur.explanation,
    error := if r.passed then none else some r.logs,
    stabilityScore := if r.passed then 100 else min 95 (20 + iter * 10) }

/-- The `while (!passed && iteration <= 8)` loop.  `fuel` is the number of
loop entries still permitted (the top-level call passes 8, and the break at
iteration 8 keeps the zero-fuel arm unreachable). -/
def verificationLoop (refine : ImplResult → Str → ImplResult)
    (host : Nat → ExecutionService.HostBehavior) :
    Nat → Nat → SvcState → ImplResult → List CodeVersion → OrchOutcome
  | 0, _, st, _, hist => ⟨hist, AppState.COMPLETED, false, st⟩
  | fuel + 1, iter, st, cur, hist =>
    match ExecutionService.runPython st cur.code cur.tests (host iter) with
    | (Except.error _, st1) => ⟨hist, AppState.ERROR, false, st1⟩
    | (Except.ok r, st1) =>
      let hist1 := hist ++ [cycleEntry iter cur r]
      if r.passed then ⟨hist1, AppState.COMPLETED, true, st1⟩
      else if iter = 8 then ⟨hist1, AppState.COMPLETED, false, st1⟩
      else verificationLoop refine host fuel (iter + 1) st1 (refine cur r.logs) hist1

/-- The orchestration run after the initial synthesis. -/
def handleFileUpload (svc : SvcState) (first : ImplResult)
    (refine : ImplResult → Str → ImplResult)
    (host : Nat → ExecutionService.HostBehavior) : OrchOutcome :=
  verificationLoop refine host 8 1 svc first []

/-- A service state with a ready runtime and a free execution lock. -/
def readySt : SvcState := ⟨some (), some 0, false, 1, 0⟩

/-- A service state in which a run is currently in flight. -/
def busySt : SvcState := ⟨some (), some 0, true, 1, 0⟩

/-- A service state whose initialization future is outstanding. -/
def initializingSt : SvcState := ⟨none, some 0, false, 1, 0⟩

/-- A guest program whose output splices internal tag text across lines. -/
def code8 : List GStmt :=
  [GStmt.gprint ("RL_STAGERL_STAGELOG: junk"), GStmt.gprint ("LOG: hi")]

/-! ## String lemmas -/

theorem beginsWith_refl : ∀ l : Str, beginsWith l l = true := by
  intro l
  induction l with
  | nil => rfl
  | cons c cs ih => simp [beginsWith, ih]

theorem beginsWith_append_left {p s : Str} (t : Str) (h : beginsWith p s = true) :
    beginsWith p (s ++ t) = true := by
  induction p generalizing s with
  | nil => rfl
  | cons a ps ih =>
    cases s with
    | nil => simp [beginsWith] at h
    | cons b s1 =>
      simp [beginsWith] at h ⊢
      exact ⟨h.1, ih h.2⟩

theorem containsSub_nil_pat : ∀ s : Str, containsSub [] s = true := by
  intro s
  cases s <;> simp [containsSub, beginsWith]

theorem containsSub_of_beginsWith {tag l : Str} (hne : tag ≠ [])
    (h : beginsWith tag l = true) : containsSub tag l = true := by
  cases l with
  | nil =>
    cases tag with
    | nil => exact absurd rfl hne
    | cons t ts => simp [beginsWith] at h
  | cons c cs => simp [containsSub, h]

theorem containsSub_append_right {p b : Str} (a : Str)
    (h : containsSub p b = true) : containsSub p (a ++ b) = true := by
  induction a with
  | nil => simpa using h
  | cons c a1 ih => simp [containsSub, ih]

theorem containsSub_append_left {p a : Str} (b : Str)
    (h : containsSub p a = true) : containsSub p (a ++ b) = true := by
  induction a with
  | nil =>
    have : p = [] := by
      cases p with
      | nil => rfl
      | cons t ts => simp [containsSub, beginsWith] at h
    subst this
    exact containsSub_nil_pat b
  | cons c a1 ih =>
    simp [containsSub] at h ⊢
    rcases h with h | h
    · exact Or.inl (beginsWith_append_left b h)
    · exact Or.inr (ih h)

theorem beginsWith_cut {tag x y : Str} (hnl : '\n' ∉ tag)
    (h : beginsWith tag (x ++ '\n' :: y) = true) : beginsWith tag x = true := by
  induction tag generalizing x with
  | nil => rfl
  | cons t ts ih =>
    cases x with
    | nil =>
      simp [beginsWith] at h
      exact absurd (h.1 ▸ List.mem_cons_self t ts) hnl
    | cons a x1 =>
      simp [beginsWith] at h ⊢
      exact ⟨h.1, ih (fun hm => hnl (List.mem_cons_of_mem _ hm)) h.2⟩

theorem pat_ne_nil_of_not_contains {tag l : Str} (h : containsSub tag l = false) :
    tag ≠ [] := by
  intro he
  subst he
  simp [containsSub_nil_pat] at h

theorem containsSub_line_append {tag l J : Str} (hnl : '\n' ∉ tag)
    (h1 : containsSub tag l = false) (h2 : containsSub tag J = false) :
    containsSub tag (l ++ '\n' :: J) = false := by
  induction l with
  | nil =>
    obtain ⟨t, ts, rfl⟩ : ∃ t ts, tag = t :: ts := by
      cases tag with
      | nil => exact absurd rfl (pat_ne_nil_of_not_contains h1)
      | cons t ts => exact ⟨t, ts, rfl⟩
    have ht : t ≠ '\n' := fun he => hnl (he ▸ List.mem_cons_self t ts)
    simp [containsSub, beginsWith, ht, h2]
  | cons c l1 ih =>
    simp [containsSub] at h1
    have hb : beginsWith tag (c :: (l1 ++ '\n' :: J)) = false := by
      by_contra hb
      have hb1 : beginsWith tag ((c :: l1) ++ '\n' :: J) = true := by
        simpa using Bool.of_not_eq_false hb
      exact absurd (beginsWith_cut hnl hb1) (by simp [h1.1])
    simp [containsSub, hb, ih h1.2]

theorem containsSub_joinLines_clean {tag : Str} (hnl : '\n' ∉ tag) (hne : tag ≠ [])
    {ls : List Str} (h : ∀ l ∈ ls, containsSub tag l = false) :
    containsSub tag (joinLines ls) = false := by
  induction ls with
  | nil =>
    obtain ⟨t, ts, rfl⟩ : ∃ t ts, tag = t :: ts := by
      cases tag with
      | nil => exact absurd rfl hne
      | cons t ts => exact ⟨t, ts, rfl⟩
    simp [joinLines, containsSub, beginsWith]
  | cons l ls ih =>
    simp [joinLines]
    exact containsSub_line_append hnl (h l (List.mem_cons_self l ls))
      (ih (fun l1 hl1 => h l1 (List.mem_cons_of_mem l hl1)))

theorem containsSub_joinLines_of_mem {l : Str} {ls : List Str} (h : l ∈ ls) :
    containsSub l (joinLines ls) = true := by
  induction ls with
  | nil => simp at h
  | cons a ls ih =>
    rcases List.mem_cons.mp h with rfl | h
    · cases l with
      | nil => simp [joinLines, containsSub_nil_pat]
      | cons c l1 =>
        have : beginsWith (c :: l1) ((c :: l1) ++ '\n' :: joinLines ls) = true :=
          beginsWith_append_left _ (beginsWith_refl _)
        simpa [joinLines, containsSub] using Or.inl this
    · have : joinLines (a :: ls) = (a ++ ['\n']) ++ joinLines ls := by
        simp [joinLines]
      rw [this]
      exact containsSub_append_right _ (ih h)

/-! ## Lemmas about the sanitizing scan -/

theorem stripScan_skip {tag : Str} : ∀ x y : Str, noNL x = true →
    stripScan tag true (x ++ '\n' :: y) = stripScan tag false y := by
  intro x
  induction x with
  | nil => intro y _; simp [stripScan]
  | cons c x1 ih =>
    intro y hx
    simp [noNL] at hx
    have hc : ¬ c = '\n' := by simpa using hx.1
    simp [stripScan, hc]
    exact ih y (by simp [noNL]; exact hx.2)

theorem stripScan_tagline {tag l J : Str} (hne : tag ≠ [])
    (hb : beginsWith tag l = true) (hl : noNL l = true) :
    stripScan tag false (l ++ '\n' :: J) = stripScan tag false J := by
  cases l with
  | nil =>
    cases tag with
    | nil => exact absurd rfl hne
    | cons t ts => simp [beginsWith] at hb
  | cons c l1 =>
    have hball : beginsWith tag (c :: (l1 ++ '\n' :: J)) = true :=
      beginsWith_append_left _ hb
    simp [noNL] at hl
    have hc : ¬ c = '\n' := by simpa using hl.1
    have hstep : stripScan tag false (c :: (l1 ++ '\n' :: J)) =
        stripScan tag true (l1 ++ '\n' :: J) := by
      simp [stripScan, hball, hc]
    rw [List.cons_append, hstep]
    exact stripScan_skip l1 J (by simp [noNL]; exact hl.2)

theorem stripScan_cleanline {tag l J : Str} (hnl : '\n' ∉ tag)
    (hclean : containsSub tag l = false) (hl : noNL l = true) :
    stripScan tag false (l ++ '\n' :: J) = l ++ '\n' :: stripScan tag false J := by
  induction l with
  | nil =>
    obtain ⟨t, ts, rfl⟩ : ∃ t ts, tag = t :: ts := by
      cases tag with
      | nil => exact absurd rfl (pat_ne_nil_of_not_contains hclean)
      | cons t ts => exact ⟨t, ts, rfl⟩
    have ht : ¬ t = '\n' := fun he => hnl (he ▸ List.mem_cons_self t ts)
    simp [stripScan, beginsWith, ht]
  | cons c l1 ih =>
    simp [containsSub] at hclean
    simp [noNL] at hl
    have hb : beginsWith tag (c :: (l1 ++ '\n' :: J)) = false := by
      by_contra hb
      have hb1 : beginsWith tag ((c :: l1) ++ '\n' :: J) = true := by
        simpa using Bool.of_not_eq_false hb
      exact absurd (beginsWith_cut hnl hb1) (by simp [hclean.1])
    simp [stripScan, hb]
    exact ih hclean.2 (by simp [noNL]; exact hl.2)

theorem stripTagAll_joinLines {tag : Str} (hnl : '\n' ∉ tag) (hne : tag ≠ []) :
    ∀ ls : List Str,
    (∀ l ∈ ls, noNL l = true ∧
      (beginsWith tag l = true ∨ containsSub tag l = false)) →
    stripTagAll tag (joinLines ls) =
      joinLines (ls.filter (fun l => !(beginsWith tag l))) := by
  intro ls
  induction ls with
  | nil => intro _; rfl
  | cons l ls ih =>
    intro h
    have hl := h l (List.mem_cons_self l ls)
    have hrest := fun l1 hl1 => h l1 (List.mem_cons_of_mem l hl1)
    by_cases hb : beginsWith tag l = true
    · have : stripTagAll tag (joinLines (l :: ls)) = stripTagAll tag (joinLines ls) := by
        simp only [joinLines]
        exact stripScan_tagline hne hb hl.1
      rw [this, ih hrest]
      simp [List.filter_cons, hb]
    · have hclean : containsSub tag l = false := by
        rcases hl.2 with h1 | h1
        · exact absurd h1 hb
        · exact h1
      have : stripTagAll tag (joinLines (l :: ls)) =
          l ++ '\n' :: stripTagAll tag (joinLines ls) := by
        simp only [joinLines]
        exact stripScan_cleanline hnl hclean hl.1
      rw [this, ih hrest]
      simp only [List.filter_cons]
      simp [hb, joinLines]

/-! ## Trim lemmas -/

theorem trimLeft_suffix : ∀ s : Str, ∃ u, s = u ++ trimLeft s := by
  intro s
  induction s with
  | nil => exact ⟨[], rfl⟩
  | cons c cs ih =>
    by_cases hc : isWS c = true
    · obtain ⟨u, hu⟩ := ih
      exact ⟨c :: u, by simp [trimLeft, hc]; exact hu⟩
    · exact ⟨[], by simp [trimLeft, hc]⟩

theorem containsSub_trimChars {tag s : Str}
    (h : containsSub tag (trimChars s) = true) : containsSub tag s = true := by
  obtain ⟨u, hu⟩ := trimLeft_suffix s
  obtain ⟨v, hv⟩ := trimLeft_suffix (trimLeft s).reverse
  have hs1 : trimLeft s = (trimChars s) ++ v.reverse := by
    have := congrArg List.reverse hv
    simpa [trimChars] using this
  have hcs : containsSub tag (trimLeft s) = true := by
    rw [hs1]
    exact containsSub_append_left _ h
  rw [hu]
  exact containsSub_append_right _ hcs

/-! ## Guest program lemmas and tag-free hypotheses -/

/-- A line that cannot interfere with the sanitizer: it has no embedded
newline and none of the three internal tags occurs in it. -/
def lineOK (l : Str) : Bool :=
  noNL l && !containsSub stageTag l && !containsSub inspTag l &&
    !containsSub finalTag l

/-- A guest statement whose observable text cannot collide with the
internal tagging protocol: printed lines and exception tracebacks are
`lineOK`, and bound names contain no newline. -/
def stmtOK : GStmt → Bool
  | .gprint s => lineOK s.data
  | .gassign x => noNL x.data
  | .graise m => lineOK (tracebackOf m)
  | .graiseIfDef x m => noNL x.data && lineOK (tracebackOf m)

def guestOK (prog : List GStmt) : Bool := prog.all stmtOK

theorem runGuest_lines_sub : ∀ (prog : List GStmt) (env : List String),
    ∀ l ∈ (runGuest prog env).lines, ∃ s, GStmt.gprint s ∈ prog ∧ l = s.data := by
  intro prog
  induction prog with
  | nil => intro env l hl; simp [runGuest] at hl
  | cons stmt rest ih =>
    intro env l hl
    cases stmt with
    | gprint s =>
      simp [runGuest] at hl
      rcases hl with rfl | hl
      · exact ⟨s, by simp, rfl⟩
      · obtain ⟨s1, hs1, rfl⟩ := ih env l hl
        exact ⟨s1, by simp [hs1], rfl⟩
    | gassign x =>
      obtain ⟨s1, hs1, rfl⟩ := ih (bindName env x) l hl
      exact ⟨s1, by simp [hs1], rfl⟩
    | graise m => simp [runGuest] at hl
    | graiseIfDef x m =>
      by_cases hx : x ∈ env
      · simp [runGuest, hx] at hl
      · simp only [runGuest, if_neg hx] at hl
        obtain ⟨s1, hs1, rfl⟩ := ih env l hl
        exact ⟨s1, by simp [hs1], rfl⟩

theorem runGuest_exc_sub : ∀ (prog : List GStmt) (env : List String) (m : String),
    (runGuest prog env).exc = some m →
    GStmt.graise m ∈ prog ∨ ∃ x, GStmt.graiseIfDef x m ∈ prog := by
  intro prog
  induction prog with
  | nil => intro env m h; simp [runGuest] at h
  | cons stmt rest ih =>
    intro env m h
    cases stmt with
    | gprint s =>
      simp only [runGuest] at h
      rcases ih env m h with h1 | ⟨x, h1⟩
      · exact Or.inl (by simp [h1])
      · exact Or.inr ⟨x, by simp [h1]⟩
    | gassign x =>
      rcases ih (bindName env x) m h with h1 | ⟨x1, h1⟩
      · exact Or.inl (by simp [h1])
      · exact Or.inr ⟨x1, by simp [h1]⟩
    | graise m1 =>
      simp [runGuest] at h
      exact Or.inl (by simp [h])
    | graiseIfDef x m1 =>
      by_cases hx : x ∈ env
      · simp [runGuest, hx] at h
        exact Or.inr ⟨x, by simp [h]⟩
      · simp only [runGuest, if_neg hx] at h
        rcases ih env m h with h1 | ⟨x1, h1⟩
        · exact Or.inl (by simp [h1])
        · exact Or.inr ⟨x1, by simp [h1]⟩

theorem runGuest_env_sub : ∀ (prog : List GStmt) (env : List String),
    ∀ x ∈ (runGuest prog env).env, x ∈ env ∨ GStmt.gassign x ∈ prog := by
  intro prog
  induction prog with
  | nil => intro env x hx; exact Or.inl (by simpa [runGuest] using hx)
  | cons stmt rest ih =>
    intro env x hx
    cases stmt with
    | gprint s =>
      simp only [runGuest] at hx
      rcases ih env x hx with h1 | h1
      · exact Or.inl h1
      · exact Or.inr (by simp [h1])
    | gassign y =>
      rcases ih (bindName env y) x hx with h1 | h1
      · by_cases hy : y ∈ env
        · exact Or.inl (by simpa [bindName, hy] using h1)
        · simp [bindName, hy] at h1
          rcases h1 with h1 | rfl
          · exact Or.inl h1
          · exact Or.inr (by simp)
      · exact Or.inr (by simp [h1])
    | graise m => exact Or.inl (by simpa [runGuest] using hx)
    | graiseIfDef y m =>
      by_cases hy : y ∈ env
      · simp [runGuest, hy] at hx
        exact Or.inl hx
      · simp only [runGuest, if_neg hy] at hx
        rcases ih env x hx with h1 | h1
        · exact Or.inl h1
        · exact Or.inr (by simp [h1])

theorem noNL_append {a b : Str} : noNL (a ++ b) = (noNL a && noNL b) := by
  simp [noNL, List.all_append]

theorem serializeVars_noNL : ∀ vs : List String,
    (∀ x ∈ vs, noNL x.data = true) → noNL (serializeVars vs) = true := by
  intro vs
  induction vs with
  | nil => intro _; rfl
  | cons x xs ih =>
    intro h
    cases xs with
    | nil => simpa [serializeVars] using h x (by simp)
    | cons y ys =>
      have hx := h x (by simp)
      have hrest := ih (fun z hz => h z (List.mem_cons_of_mem x hz))
      simp only [serializeVars]
      rw [noNL_append, hx]
      simpa [noNL] using hrest

/-- Classification of a line of driver output: it is the inspector line, a
stage line, a final-status line, or interference-free text. -/
def lineClass (l : Str) : Prop :=
  (beginsWith inspTag l = true ∧ noNL l = true) ∨
  (beginsWith stageTag l = true ∧ noNL l = true ∧
     containsSub inspTag l = false ∧ containsSub finalTag l = false) ∨
  (beginsWith finalTag l = true ∧ noNL l = true ∧
     containsSub inspTag l = false ∧ containsSub stageTag l = false) ∨
  lineOK l = true

theorem lineOK_spec {l : Str} (h : lineOK l = true) :
    noNL l = true ∧ containsSub stageTag l = false ∧
    containsSub inspTag l = false ∧ containsSub finalTag l = false := by
  simp [lineOK] at h
  exact ⟨h.1.1.1, h.1.1.2, h.1.2, h.2⟩

theorem lineClass_inspLine {vs : List String}
    (h : ∀ x ∈ vs, noNL x.data = true) :
    lineClass (inspTag ++ serializeVars vs) := by
  refine Or.inl ⟨beginsWith_append_left _ (beginsWith_refl _), ?_⟩
  rw [noNL_append, serializeVars_noNL vs h, Bool.and_true]
  decide

theorem guest_line_lineOK {prog : List GStmt} {env : List String} {l : Str}
    (hok : guestOK prog = true) (hl : l ∈ (runGuest prog env).lines) :
    lineOK l = true := by
  obtain ⟨s, hs, rfl⟩ := runGuest_lines_sub prog env l hl
  have := (List.all_eq_true.mp hok) _ hs
  simpa [stmtOK] using this

theorem guest_exc_lineOK {prog : List GStmt} {env : List String} {m : String}
    (hok : guestOK prog = true) (hm : (runGuest prog env).exc = some m) :
    lineOK (tracebackOf m) = true := by
  rcases runGuest_exc_sub prog env m hm with h1 | ⟨x, h1⟩
  · have := (List.all_eq_true.mp hok) _ h1
    simpa [stmtOK] using this
  · have := (List.all_eq_true.mp hok) _ h1
    simp [stmtOK] at this
    exact this.2

theorem guest_env_noNL {prog : List GStmt} {env : List String}
    (hok : guestOK prog = true) (henv : ∀ x ∈ env, noNL x.data = true) :
    ∀ x ∈ (runGuest prog env).env, noNL x.data = true := by
  intro x hx
  rcases runGuest_env_sub prog env x hx with h1 | h1
  · exact henv x h1
  · have := (List.all_eq_true.mp hok) _ h1
    simpa [stmtOK] using this

theorem runResearchLoop_lines_class {code tests : List GStmt}
    (hc : guestOK code = true) (ht : guestOK tests = true) :
    ∀ l ∈ (runResearchLoop code tests).lines, lineClass l := by
  intro l hl
  have hclean : ∀ l1 : Str, lineOK l1 = true → lineClass l1 :=
    fun l1 h1 => Or.inr (Or.inr (Or.inr h1))
  have henvC : ∀ x ∈ (runGuest code []).env, noNL x.data = true :=
    guest_env_noNL hc (by intro x hx; simp at hx)
  have henvT : ∀ x ∈ (runGuest tests (runGuest code []).env).env, noNL x.data = true :=
    guest_env_noNL ht henvC
  have hvarsT : ∀ x ∈ inspectorVars (runGuest tests (runGuest code []).env).env,
      noNL x.data = true :=
    fun x hx => henvT x (List.mem_filter.mp hx).1
  rcases hexc : (runGuest code []).exc with _ | m
  · rcases hexcT : (runGuest tests (runGuest code []).env).exc with _ | m1
    · simp only [runResearchLoop, hexc, hexcT] at hl
      simp at hl
      rcases hl with rfl | hl | rfl | hl | rfl | rfl | rfl
      · exact Or.inr (Or.inl (by decide))
      · exact hclean l (guest_line_lineOK hc hl)
      · exact Or.inr (Or.inl (by decide))
      · exact hclean l (guest_line_lineOK ht hl)
      · exact Or.inr (Or.inl (by decide))
      · exact lineClass_inspLine hvarsT
      · exact Or.inr (Or.inr (Or.inl (by decide)))
    · simp only [runResearchLoop, hexc, hexcT] at hl
      simp at hl
      rcases hl with rfl | hl | rfl | hl | rfl | rfl | rfl | rfl | rfl
      · exact Or.inr (Or.inl (by decide))
      · exact hclean l (guest_line_lineOK hc hl)
      · exact Or.inr (Or.inl (by decide))
      · exact hclean l (guest_line_lineOK ht hl)
      · exact Or.inr (Or.inl (by decide))
      · exact hclean _ (guest_exc_lineOK ht hexcT)
      · exact Or.inr (Or.inl (by decide))
      · exact lineClass_inspLine hvarsT
      · exact Or.inr (Or.inr (Or.inl (by decide)))
  · simp only [runResearchLoop, hexc] at hl
    simp at hl
    rcases hl with rfl | hl | rfl | rfl | rfl | rfl
    · exact Or.inr (Or.inl (by decide))
    · exact hclean l (guest_line_lineOK hc hl)
    · exact Or.inr (Or.inl (by decide))
    · exact hclean _ (guest_exc_lineOK hc hexc)
    · exact lineClass_inspLine (by intro x hx; simp [serializeVars] at hx)
    · exact Or.inr (Or.inr (Or.inl (by decide)))

/-- Central sanitization lemma: when the guest programs cannot spoof the
tagging protocol, the sanitized logs contain no occurrence of any internal
tag. -/
theorem cleanBuffer_tagfree {code tests : List GStmt}
    (hc : guestOK code = true) (ht : guestOK tests = true) :
    containsSub inspTag (cleanBuffer (captureBuffer code tests)) = false ∧
    containsSub stageTag (cleanBuffer (captureBuffer code tests)) = false ∧
    containsSub finalTag (cleanBuffer (captureBuffer code tests)) = false := by
  have hcl := runResearchLoop_lines_class hc ht
  set ls := (runResearchLoop code tests).lines with hls
  set ls1 := ls.filter (fun l => !(beginsWith inspTag l)) with hls1
  set ls2 := ls1.filter (fun l => !(beginsWith stageTag l)) with hls2
  set ls3 := ls2.filter (fun l => !(beginsWith finalTag l)) with hls3
  have hmem1 : ∀ l ∈ ls1, l ∈ ls ∧ beginsWith inspTag l = false := by
    intro l hl
    have h := List.mem_filter.mp hl
    exact ⟨h.1, by simpa using h.2⟩
  have hmem2 : ∀ l ∈ ls2, l ∈ ls ∧ beginsWith inspTag l = false ∧
      beginsWith stageTag l = false := by
    intro l hl
    have h := List.mem_filter.mp hl
    obtain ⟨h1, h2⟩ := hmem1 l h.1
    exact ⟨h1, h2, by simpa using h.2⟩
  have hmem3 : ∀ l ∈ ls3, l ∈ ls ∧ beginsWith inspTag l = false ∧
      beginsWith stageTag l = false ∧ beginsWith finalTag l = false := by
    intro l hl
    have h := List.mem_filter.mp hl
    obtain ⟨h1, h2, h3⟩ := hmem2 l h.1
    exact ⟨h1, h2, h3, by simpa using h.2⟩
  have hpass1 : ∀ l ∈ ls, noNL l = true ∧
      (beginsWith inspTag l = true ∨ containsSub inspTag l = false) := by
    intro l hl
    rcases hcl l hl with ⟨h1, h2⟩ | ⟨h1, h2, h3, h4⟩ | ⟨h1, h2, h3, h4⟩ | h1
    · exact ⟨h2, Or.inl h1⟩
    · exact ⟨h2, Or.inr h3⟩
    · exact ⟨h2, Or.inr h3⟩
    · obtain ⟨n1, _, i1, _⟩ := lineOK_spec h1
      exact ⟨n1, Or.inr i1⟩
  have hpass2 : ∀ l ∈ ls1, noNL l = true ∧
      (beginsWith stageTag l = true ∨ containsSub stageTag l = false) := by
    intro l hl
    obtain ⟨hmem, hni⟩ := hmem1 l hl
    rcases hcl l hmem with ⟨h1, h2⟩ | ⟨h1, h2, h3, h4⟩ | ⟨h1, h2, h3, h4⟩ | h1
    · simp [h1] at hni
    · exact ⟨h2, Or.inl h1⟩
    · exact ⟨h2, Or.inr h4⟩
    · obtain ⟨n1, s1, _, _⟩ := lineOK_spec h1
      exact ⟨n1, Or.inr s1⟩
  have hpass3 : ∀ l ∈ ls2, noNL l = true ∧
      (beginsWith finalTag l = true ∨ containsSub finalTag l = false) := by
    intro l hl
    obtain ⟨hmem, hni, hns⟩ := hmem2 l hl
    rcases hcl l hmem with ⟨h1, h2⟩ | ⟨h1, h2, h3, h4⟩ | ⟨h1, h2, h3, h4⟩ | h1
    · simp [h1] at hni
    · simp [h1] at hns
    · exact ⟨h2, Or.inl h1⟩
    · obtain ⟨n1, _, _, f1⟩ := lineOK_spec h1
      exact ⟨n1, Or.inr f1⟩
  have hclean3 : ∀ l ∈ ls3, containsSub inspTag l = false ∧
      containsSub stageTag l = false ∧ containsSub finalTag l = false := by
    intro l hl
    obtain ⟨hmem, hni, hns, hnf⟩ := hmem3 l hl
    rcases hcl l hmem with ⟨h1, h2⟩ | ⟨h1, h2, h3, h4⟩ | ⟨h1, h2, h3, h4⟩ | h1
    · simp [h1] at hni
    · simp [h1] at hns
    · simp [h1] at hnf
    · obtain ⟨_, s1, i1, f1⟩ := lineOK_spec h1
      exact ⟨i1, s1, f1⟩
  have hstep1 : stripTagAll inspTag (joinLines ls) = joinLines ls1 :=
    stripTagAll_joinLines (by decide) (by decide) ls hpass1
  have hstep2 : stripTagAll stageTag (joinLines ls1) = joinLines ls2 :=
    stripTagAll_joinLines (by decide) (by decide) ls1 hpass2
  have hstep3 : stripTagAll finalTag (joinLines ls2) = joinLines ls3 :=
    stripTagAll_joinLines (by decide) (by decide) ls2 hpass3
  have hbuf : cleanBuffer (captureBuffer code tests) = trimChars (joinLines ls3) := by
    simp only [cleanBuffer, captureBuffer, ← hls, hstep1, hstep2, hstep3]
  have hjoin : ∀ tag : Str, '\n' ∉ tag → tag ≠ [] →
      (∀ l ∈ ls3, containsSub tag l = false) →
      containsSub tag (cleanBuffer (captureBuffer code tests)) = false := by
    intro tag hnl hne hcl3
    rw [hbuf]
    by_contra hcon
    have hcon1 : containsSub tag (trimChars (joinLines ls3)) = true := by
      simpa using hcon
    have hcon2 := containsSub_trimChars hcon1
    rw [containsSub_joinLines_clean hnl hne hcl3] at hcon2
    exact Bool.false_ne_true hcon2
  exact ⟨hjoin inspTag (by decide) (by decide) (fun l hl => (hclean3 l hl).1),
         hjoin stageTag (by decide) (by decide) (fun l hl => (hclean3 l hl).2.1),
         hjoin finalTag (by decide) (by decide) (fun l hl => (hclean3 l hl).2.2)⟩

/-! ## Orchestrator loop invariants -/

theorem verificationLoop_extends (refine : ImplResult → Str → ImplResult)
    (host : Nat → ExecutionService.HostBehavior) :
    ∀ fuel iter st cur hist, ∃ tail,
      (verificationLoop refine host fuel iter st cur hist).history = hist ++ tail := by
  intro fuel
  induction fuel with
  | zero => intro iter st cur hist; exact ⟨[], by simp [verificationLoop]⟩
  | succ fuel ih =>
    intro iter st cur hist
    simp only [verificationLoop]
    split
    · exact ⟨[], by simp⟩
    · rename_i r st1 heq
      by_cases hp : r.passed
      · exact ⟨[cycleEntry iter cur r], by simp [hp]⟩
      · by_cases h8 : iter = 8
        · exact ⟨[cycleEntry iter cur r], by simp [hp, h8]⟩
        · obtain ⟨t, ht⟩ := ih (iter + 1) st1 (refine cur r.logs)
            (hist ++ [cycleEntry iter cur r])
          refine ⟨[cycleEntry iter cur r] ++ t, ?_⟩
          simp only [hp, Bool.false_eq_true, if_false, if_neg h8]
          rw [ht, List.append_assoc]

theorem verificationLoop_invariant (refine : ImplResult → Str → ImplResult)
    (host : Nat → ExecutionService.HostBehavior) :
    ∀ fuel iter st cur hist,
      hist.map (fun r => r.iteration) = List.range' 1 hist.length →
      (∀ r ∈ hist, r.error.isSome = true) →
      iter = hist.length + 1 →
      iter + fuel = 9 →
      (verificationLoop refine host fuel iter st cur hist).history.length ≤ 8 ∧
      (verificationLoop refine host fuel iter st cur hist).history.map
        (fun r => r.iteration) =
        List.range' 1 (verificationLoop refine host fuel iter st cur hist).history.length ∧
      (∀ last, (verificationLoop refine host fuel iter st cur hist).history.getLast? =
        some last → last.error.isSome =
          !(verificationLoop refine host fuel iter st cur hist).passed) ∧
      ((verificationLoop refine host fuel iter st cur hist).finalState =
          AppState.COMPLETED ∨
       (verificationLoop refine host fuel iter st cur hist).finalState =
          AppState.ERROR) := by
  intro fuel
  induction fuel with
  | zero =>
    intro iter st cur hist hmap hsome hiter hbound
    simp only [verificationLoop]
    refine ⟨by omega, hmap, ?_, by simp⟩
    intro last hlast
    simpa using hsome last (List.mem_of_getLast?_eq_some hlast)
  | succ fuel ih =>
    intro iter st cur hist hmap hsome hiter hbound
    simp only [verificationLoop]
    split
    · refine ⟨by simp; omega, hmap, ?_, by simp⟩
      intro last hlast
      simp only at hlast
      simpa using hsome last (List.mem_of_getLast?_eq_some hlast)
    · rename_i r st1 heq
      have hmap1 : (hist ++ [cycleEntry iter cur r]).map
            (fun r => r.iteration) =
          List.range' 1 (hist.length + 1) := by
        rw [List.map_append, hmap, List.range'_1_concat]
        simp [hiter, cycleEntry]
        omega
      have herr : r.passed = false → (cycleEntry iter cur r).error.isSome = true := by
        intro h
        simp [cycleEntry, h]
      by_cases hp : r.passed
      · simp only [hp, if_true]
        refine ⟨by simp; omega, by simpa using hmap1, ?_, by simp⟩
        intro last hlast
        simp only [List.getLast?_concat] at hlast
        cases hlast
        simp [cycleEntry, hp]
      · by_cases h8 : iter = 8
        · simp only [hp, Bool.false_eq_true, if_false, if_pos h8]
          refine ⟨by simp; omega, ?_, ?_, by simp⟩
          · have := hmap1
            rw [h8] at this ⊢
            simpa using this
          · intro last hlast
            simp only [List.getLast?_concat] at hlast
            cases hlast
            simpa using herr (by simpa using hp)
        · simp only [hp, Bool.false_eq_true, if_false, if_neg h8]
          refine ih (iter + 1) st1 (refine cur r.logs) _ ?_ ?_ ?_ ?_
          · simpa using hmap1
          · intro r1 hr1
            rcases List.mem_append.mp hr1 with h1 | h1
            · exact hsome r1 h1
            · simp at h1
              subst h1
              exact herr (by simpa using hp)
          · simp [hiter]
          · omega

/-! ## Claims -/

/-- Claim C1, counterexample: a `runPython` call made while another run is
in flight throws the execution-lock error to its caller, so `runPython`
does not return an `ExecutionResult` on every path. -/
theorem c1_busy_call_throws :
    (ExecutionService.runPython busySt [] []
        ExecutionService.HostBehavior.completes).1 =
      Except.error ("Execution lock active.") := rfl

/-- Claim C1, amended: for every call made while no run is in flight,
`runPython` returns exactly one `ExecutionResult` and never throws — on
every path, including host-level initialization and execution failures —
and the execution lock is released afterwards. -/
theorem c1_total_when_unlocked (st : SvcState) (code tests : List GStmt)
    (host : ExecutionService.HostBehavior) (h : st.isExecuting = false) :
    (∃ r, (ExecutionService.runPython st code tests host).1 = Except.ok r) ∧
    (ExecutionService.runPython st code tests host).2.isExecuting = false := by
  cases host <;> simp [ExecutionService.runPython, h, ExecutionService.handleFatalError]

/-- Witness for C1 at a concrete ready state. -/
theorem c1_total_when_unlocked_witness :
    (∃ r, (ExecutionService.runPython readySt [] []
        ExecutionService.HostBehavior.completes).1 = Except.ok r) ∧
    (ExecutionService.runPython readySt [] []
        ExecutionService.HostBehavior.completes).2.isExecuting = false :=
  c1_total_when_unlocked readySt [] [] ExecutionService.HostBehavior.completes rfl

/-- Claim C2: while a run is in flight, a second `runPython` call fails
immediately with the execution-lock error, leaves the service state
untouched (no queuing), and starts no second sandboxed execution (the
execution counter is unchanged). -/
theorem c2_busy_rejection (st : SvcState) (code tests : List GStmt)
    (host : ExecutionService.HostBehavior) (h : st.isExecuting = true) :
    ExecutionService.runPython st code tests host =
      (Except.error ("Execution lock active."), st) ∧
    (ExecutionService.runPython st code tests host).2.execCount = st.execCount := by
  constructor <;> simp [ExecutionService.runPython, h]

/-- Witness for C2 at a concrete busy state. -/
theorem c2_busy_rejection_witness :
    ExecutionService.runPython busySt [] []
        ExecutionService.HostBehavior.completes =
      (Except.error ("Execution lock active."), busySt) ∧
    (ExecutionService.runPython busySt [] []
        ExecutionService.HostBehavior.completes).2.execCount = busySt.execCount :=
  c2_busy_rejection busySt [] [] ExecutionService.HostBehavior.completes rfl

/-- Claim C3, counterexample: a candidate that merely prints the
implementation-error stage line (without raising) yields `passed = true`
although the captured buffer contains the implementation-error marker, so
`passed` is not "success marker present and implementation-error marker
absent". -/
theorem c3_no_absence_check :
    ¬ ((completedResult [GStmt.gprint ("RL_STAGELOG: IMPLEMENTATION_ERROR")] []).passed =
        (containsSub finalSuccessLine
            (captureBuffer [GStmt.gprint ("RL_STAGELOG: IMPLEMENTATION_ERROR")] []) &&
         !containsSub implErrorLine
            (captureBuffer [GStmt.gprint ("RL_STAGELOG: IMPLEMENTATION_ERROR")] []))) := by
  decide

/-- Claim C3, amended: for every completed (non-host-throwing) run, the
returned `passed` field is true iff the captured output buffer contains the
final-status success marker; the absence of the implementation-error marker
is not separately checked.  In particular a run whose candidate and tests
both complete without exception always yields `passed = true`. -/
theorem c3_passed_iff_success_marker :
    (∀ code tests : List GStmt,
       (completedResult code tests).passed = true ↔
         containsSub finalSuccessLine (captureBuffer code tests) = true) ∧
    (∀ code tests : List GStmt,
       (runGuest code []).exc = none →
       (runGuest tests (runGuest code []).env).exc = none →
       (completedResult code tests).passed = true) := by
  refine ⟨fun code tests => Iff.rfl, ?_⟩
  intro code tests h1 h2
  show containsSub finalSuccessLine (captureBuffer code tests) = true
  exact containsSub_joinLines_of_mem (by simp [runResearchLoop, h1, h2])

/-- Witness for C3 at a concrete cleanly-passing run. -/
theorem c3_passed_iff_success_marker_witness :
    (completedResult [GStmt.gassign ("x")] []).passed = true :=
  c3_passed_iff_success_marker.2 [GStmt.gassign ("x")] [] rfl rfl

/-- The logs of every host-level failure are prefixed with the fatal-engine
marker. -/
theorem fatalLogs_prefixed (m : String) :
    beginsWith ("FATAL_ENGINE_ERROR: ".data) (ExecutionService.fatalLogs m) = true := by
  rw [ExecutionService.fatalLogs, String.data_append]
  exact beginsWith_append_left _ (beginsWith_refl _)

/-- Claim C4: a host-level throw with a fatally-classified message discards
the runtime handle and the stored initialization future (so the next `init`
starts a full fresh bootstrap) and returns a failed result whose logs are
the FATAL_ENGINE_ERROR-prefixed message; a non-fatal host-level throw
returns a failed result while the runtime handle stays alive. -/
theorem c4_fatal_classification (st : SvcState) (code tests : List GStmt)
    (m : String) (hfree : st.isExecuting = false) :
    (ExecutionService.isFatalMsg m = true →
      (ExecutionService.runPython st code tests (.runThrows m)).1 =
        Except.ok { passed := false, logs := ExecutionService.fatalLogs m,
                    vars := none } ∧
      beginsWith ("FATAL_ENGINE_ERROR: ".data) (ExecutionService.fatalLogs m) = true ∧
      (ExecutionService.runPython st code tests (.runThrows m)).2.pyodide = none ∧
      (ExecutionService.runPython st code tests (.runThrows m)).2.initPromise = none ∧
      (ExecutionService.init
          (ExecutionService.runPython st code tests (.runThrows m)).2).1 =
        InitAction.started
          (ExecutionService.runPython st code tests (.runThrows m)).2.bootCount) ∧
    (ExecutionService.isFatalMsg m = false →
      (ExecutionService.runPython st code tests (.runThrows m)).1 =
        Except.ok { passed := false, logs := ExecutionService.fatalLogs m,
                    vars := none } ∧
      (ExecutionService.runPython st code tests (.runThrows m)).2.pyodide = some ()) := by
  constructor
  · intro hf
    refine ⟨?_, fatalLogs_prefixed m, ?_, ?_, ?_⟩ <;>
      simp [ExecutionService.runPython, hfree, ExecutionService.handleFatalError, hf,
        ExecutionService.init, ExecutionService.initResolved, ExecutionService.resolveInit]
  · intro hf
    constructor <;>
      simp [ExecutionService.runPython, hfree, ExecutionService.handleFatalError, hf,
        ExecutionService.initResolved, ExecutionService.resolveInit]

/-- Witness for C4: a concrete fatally-classified message purges the
runtime so the next initialization is a fresh bootstrap. -/
theorem c4_fatal_classification_witness :
    (ExecutionService.runPython readySt [] [] (.runThrows ("fatal error"))).2.pyodide =
        none ∧
    (ExecutionService.runPython readySt [] [] (.runThrows ("fatal error"))).2.initPromise =
        none :=
  ⟨((c4_fatal_classification readySt [] [] ("fatal error") rfl).1 (by decide)).2.2.1,
   ((c4_fatal_classification readySt [] [] ("fatal error") rfl).1 (by decide)).2.2.2.1⟩

/-- Claim C5: the initializer is single-flight — a call with a ready
runtime returns immediately without re-initializing; a call while an
initialization is outstanding awaits that same future and starts no second
bootstrap; and a fresh bootstrap is started only from a state with neither
a runtime nor an outstanding future. -/
theorem c5_single_flight_initialization :
    (∀ st : SvcState, st.pyodide = some () →
       ExecutionService.init st = (InitAction.alreadyReady, st)) ∧
    (∀ (st : SvcState) (fid : Nat), st.pyodide = none → st.initPromise = some fid →
       ExecutionService.init st = (InitAction.awaitExisting fid, st)) ∧
    (∀ st : SvcState, (ExecutionService.init st).2.bootCount =
       st.bootCount + (if st.pyodide = none ∧ st.initPromise = none then 1 else 0)) := by
  refine ⟨?_, ?_, ?_⟩
  · intro st h
    simp [ExecutionService.init, h]
  · intro st fid h1 h2
    simp [ExecutionService.init, h1, h2]
  · intro st
    rcases hp : st.pyodide with _ | u
    · rcases hi : st.initPromise with _ | fid
      · simp [ExecutionService.init, hp, hi]
      · simp [ExecutionService.init, hp, hi]
    · simp [ExecutionService.init, hp]

/-- Witness for C5 at concrete ready and initializing states. -/
theorem c5_single_flight_initialization_witness :
    ExecutionService.init readySt = (InitAction.alreadyReady, readySt) ∧
    ExecutionService.init initializingSt =
      (InitAction.awaitExisting 0, initializingSt) :=
  ⟨c5_single_flight_initialization.1 readySt rfl,
   c5_single_flight_initialization.2.1 initializingSt 0 rfl rfl⟩

/-- Claim C6, counterexample: when every iteration fails, the run ends with
a last record whose `error` is non-null while the final state is COMPLETED,
not the failure state — refuting "the last record's error is non-null iff
the final state is the failure state". -/
theorem c6_exhaustion_ends_completed :
    ¬ ((((handleFileUpload readySt ⟨[], [], "x"⟩ (fun c _ => c)
            (fun _ => .runThrows ("boom"))).history.getLast?).map
          (fun r => r.error.isSome) = some true) ↔
       (handleFileUpload readySt ⟨[], [], "x"⟩ (fun c _ => c)
          (fun _ => .runThrows ("boom"))).finalState = AppState.ERROR) := by
  decide

/-- Claim C6, amended: for every orchestration run the history holds at
most 8 records with consecutive 1-based iteration indices, records are only
appended (the loop only extends its history), and the last record's `error`
is non-null iff the final run did not pass; exhausting the ceiling ends in
COMPLETED (with the testing step marked as errored), and ERROR is reached
only when the execution service throws. -/
theorem c6_history_bounded_audit (svc : SvcState) (first : ImplResult)
    (refine : ImplResult → Str → ImplResult)
    (host : Nat → ExecutionService.HostBehavior) :
    (handleFileUpload svc first refine host).history.length ≤ 8 ∧
    (handleFileUpload svc first refine host).history.map (fun r => r.iteration) =
      List.range' 1 (handleFileUpload svc first refine host).history.length ∧
    (∀ last, (handleFileUpload svc first refine host).history.getLast? = some last →
       last.error.isSome = !(handleFileUpload svc first refine host).passed) ∧
    ((handleFileUpload svc first refine host).finalState = AppState.COMPLETED ∨
     (handleFileUpload svc first refine host).finalState = AppState.ERROR) ∧
    (∀ fuel iter st cur hist, ∃ tail,
       (verificationLoop refine host fuel iter st cur hist).history = hist ++ tail) := by
  have h := verificationLoop_invariant refine host 8 1 svc first []
    (by simp) (by simp) rfl rfl
  exact ⟨h.1, h.2.1, h.2.2.1, h.2.2.2, verificationLoop_extends refine host⟩

/-- Witness for C6 at a concrete one-iteration successful run. -/
theorem c6_history_bounded_audit_witness :
    ({ iteration := 1, code := [], explanation := "e", error := none,
       stabilityScore := 100 } : CodeVersion).error.isSome =
      !(handleFileUpload readySt ⟨[], [], "e"⟩ (fun c _ => c)
          (fun _ => .completes)).passed :=
  (c6_history_bounded_audit readySt ⟨[], [], "e"⟩ (fun c _ => c)
    (fun _ => .completes)).2.2.1 _ (by decide)

/-- Claim C7: two back-to-back `runPython` calls with identical inputs on a
ready runtime return identical results (in particular the same `passed`
value): each call runs the driver in a fresh global binding scope, and no
guest state survives into the service state between calls. -/
theorem c7_back_to_back_deterministic (st : SvcState) (code tests : List GStmt)
    (hfree : st.isExecuting = false) (_hready : st.pyodide = some ()) :
    (ExecutionService.runPython st code tests .completes).1 =
      (ExecutionService.runPython
        (ExecutionService.runPython st code tests .completes).2
        code tests .completes).1 ∧
    (∃ r, (ExecutionService.runPython st code tests .completes).1 = Except.ok r) := by
  constructor
  · simp [ExecutionService.runPython, hfree]
  · simp [ExecutionService.runPython, hfree]

/-- Witness for C7 at a concrete ready state. -/
theorem c7_back_to_back_deterministic_witness :
    (ExecutionService.runPython readySt [GStmt.gassign ("x")] [] .completes).1 =
      (ExecutionService.runPython
        (ExecutionService.runPython readySt [GStmt.gassign ("x")] [] .completes).2
        [GStmt.gassign ("x")] [] .completes).1 :=
  (c7_back_to_back_deterministic readySt [GStmt.gassign ("x")] [] rfl rfl).1

/-- Claim C8, counterexample: a guest line embedding tag text mid-line
makes the sanitizer splice together a surviving internal tag occurrence, so
the returned logs are not free of every internal-tag occurrence. -/
theorem c8_spliced_tag_survives :
    containsSub stageTag (completedResult code8 []).logs = true := by decide

/-- Claim C8, amended: for every run whose guest programs print only
newline-free lines containing no internal tag, raise only exceptions whose
traceback text is newline-free and contains no internal tag, and bind only
newline-free names, the returned logs contain no occurrence of the
inspector-snapshot tag, the stage tag, or the final-status tag. -/
theorem c8_logs_sanitized (code tests : List GStmt)
    (hc : guestOK code = true) (ht : guestOK tests = true) :
    containsSub inspTag (completedResult code tests).logs = false ∧
    containsSub stageTag (completedResult code tests).logs = false ∧
    containsSub finalTag (completedResult code tests).logs = false :=
  cleanBuffer_tagfree hc ht

/-- Witness for C8 on concrete tag-free guest programs. -/
theorem c8_logs_sanitized_witness :
    containsSub stageTag
      (completedResult [GStmt.gprint ("hello")] [GStmt.gassign ("x")]).logs = false :=
  (c8_logs_sanitized [GStmt.gprint ("hello")] [GStmt.gassign ("x")]
    (by decide) (by decide)).2.1

/-- Claim C9: when the candidate raises inside its guarded block, the test
code is never executed (the driver output is independent of the test
program), the failure is reported through the implementation-error marker
and the traceback text, and the session still returns a result instead of
aborting. -/
theorem c9_impl_error_skips_tests (code : List GStmt) (m : String)
    (hexc : (runGuest code []).exc = some m) :
    (∀ tests1 tests2 : List GStmt,
       runResearchLoop code tests1 = runResearchLoop code tests2) ∧
    (∀ tests : List GStmt,
       containsSub implErrorLine (captureBuffer code tests) = true ∧
       containsSub (tracebackOf m) (captureBuffer code tests) = true ∧
       (runResearchLoop code tests).res = false) ∧
    (∀ (st : SvcState) (tests : List GStmt), st.isExecuting = false →
       ∃ r, (ExecutionService.runPython st code tests .completes).1 = Except.ok r) := by
  refine ⟨?_, ?_, ?_⟩
  · intro t1 t2
    simp [runResearchLoop, hexc]
  · intro tests
    refine ⟨?_, ?_, ?_⟩
    · exact containsSub_joinLines_of_mem (by simp [runResearchLoop, hexc])
    · exact containsSub_joinLines_of_mem (by simp [runResearchLoop, hexc])
    · simp [runResearchLoop, hexc]
  · intro st tests hfree
    simp [ExecutionService.runPython, hfree]

/-- Witness for C9 at a concrete raising candidate. -/
theorem c9_impl_error_skips_tests_witness :
    runResearchLoop [GStmt.graise ("boom")] [GStmt.gprint ("A")] =
      runResearchLoop [GStmt.graise ("boom")] [GStmt.gprint ("B")] :=
  (c9_impl_error_skips_tests [GStmt.graise ("boom")] ("boom") rfl).1 _ _

/-- Claim C10: there is a candidate/test pair whose tests raise (so the
driver-level verdict is a failure) and yet the host returns `passed = true`,
because the candidate prints the final-status success marker and the host
decides the verdict by substring presence alone. -/
theorem c10_forged_success_marker :
    ∃ code tests : List GStmt,
      (runGuest tests (runGuest code []).env).exc.isSome = true ∧
      (runResearchLoop code tests).res = false ∧
      (completedResult code tests).passed = true := by
  refine ⟨[GStmt.gprint ("RL_FINAL_STATUS: SUCCESS")],
          [GStmt.graise ("tests failed")], ?_, ?_, ?_⟩ <;> decide

end ResearchLoop
